import Mathlib

/-!
Shallow embedding of the hack_assembler repository
(src/parser.rs, src/code.rs, src/symbol_table.rs, src/assembler.rs).
Rust strings are Lean strings, panics are modelled as `none`, and the
two-pass pipeline is modelled as pure functions over the list of source
lines of the input file.
-/

namespace HackAssembler

/-- Rust `line.replace(' ', "")` as used in `Parser::advance`: removes every
space character (U+0020) and nothing else; tabs and other whitespace stay. -/
def removeSpaces (s : String) : String :=
  ⟨s.data.filter (fun c => c != ' ')⟩

/-- One test of the skip loop in `Parser::advance`: after space removal the
line is empty or starts with a `//` comment marker. -/
def skippable (l : String) : Bool :=
  (removeSpaces l).data.isEmpty ||
    (match (removeSpaces l).data with
     | '/' :: '/' :: _ => true
     | _ => false)

/-- The three instruction shapes of src/parser.rs. -/
inductive InstructionType where
  | A
  | C
  | L
deriving DecidableEq

/-- `Parser::instruction_type` applied to a current instruction; `none`
models the `invalid instruction` panic. -/
def instructionType (s : String) : Option InstructionType :=
  if s.data.head? = some '@' then some InstructionType.A
  else if s.data.head? = some '(' then some InstructionType.L
  else if s.data.contains '=' || s.data.contains ';' then some InstructionType.C
  else none

/-- `Parser::symbol` on an A instruction: `trim_start_matches('@')`. -/
def aSymbol (s : String) : String :=
  ⟨s.data.dropWhile (fun c => c == '@')⟩

/-- `Parser::symbol` on an L instruction:
`trim_start_matches('(').trim_end_matches(')')`. -/
def lSymbol (s : String) : String :=
  ⟨((s.data.dropWhile (fun c => c == '(')).reverse.dropWhile
      (fun c => c == ')')).reverse⟩

/-- Splitting a character list at a separator, mirroring Rust `str::split`:
the result always has at least one (possibly empty) part. -/
def splitChar (c : Char) : List Char → List (List Char)
  | [] => [[]]
  | x :: xs =>
    match splitChar c xs with
    | [] => [[]]
    | h :: t => if x == c then [] :: h :: t else (x :: h) :: t

/-- `Parser::dest`: empty unless the instruction contains `=`, else the part
before the first `=`. -/
def dest (s : String) : String :=
  if s.data.contains '=' then ⟨(splitChar '=' s.data).headD []⟩ else ""

/-- `Parser::comp`: with a `=` present, `split('=').nth(1)`; otherwise with a
`;` present, `split(';').next()`; otherwise the function panics (`none`). -/
def comp (s : String) : Option String :=
  if s.data.contains '=' then ((splitChar '=' s.data)[1]?).map (fun l => ⟨l⟩)
  else if s.data.contains ';' then
    ((splitChar ';' s.data).head?).map (fun l => ⟨l⟩)
  else none

/-- `Parser::jump`: empty unless the instruction contains `;`, else the part
after the last `;`. -/
def jump (s : String) : String :=
  if s.data.contains ';' then ⟨(splitChar ';' s.data).getLastD []⟩ else ""

/-- Rust `str::parse::<u32>`: an optional leading `+`, then at least one
ascii digit, and the value must be below `2 ^ 32`. -/
def parseU32 (s : String) : Option Nat :=
  let l :=
    match s.data with
    | '+' :: rest => rest
    | other => other
  if l.isEmpty then none
  else if l.all (fun c => c.isDigit) then
    let v := l.foldl (fun a c => 10 * a + (c.toNat - 48)) 0
    if v < 4294967296 then some v else none
  else none

/-- One binary digit character. -/
def bitChar (n : Nat) : Char := if n = 1 then '1' else '0'

/-- Little-endian binary digits of `v`; the first argument is fuel so that
the definition reduces inside the kernel. -/
def binRev : Nat → Nat → List Char
  | 0, _ => []
  | f + 1, v => if v = 0 then [] else bitChar (v % 2) :: binRev f (v / 2)

/-- Rust `format!` with binary specifier and zero padding to `width`: the
binary digits of `v`, most significant first, left padded with zeros. -/
def binFmt (width v : Nat) : String :=
  let ds := if v = 0 then ['0'] else (binRev v v).reverse
  ⟨List.replicate (width - ds.length) '0' ++ ds⟩

/-- `a_value_to_binary` from src/code.rs. -/
def aValueToBinary (s : String) : Option String :=
  (parseU32 s).map (binFmt 16)

/-- `dest_to_binary` from src/code.rs: presence of `M`, `D`, `A` contributes
1, 2, 4, and the sum is rendered as three binary digits. -/
def destToBinary (s : String) : String :=
  let d := (if s.data.contains 'M' then 1 else 0)
    + (if s.data.contains 'D' then 2 else 0)
    + (if s.data.contains 'A' then 4 else 0)
  binFmt 3 d

/-- The 6-bit comp table of `comp_to_binary` in src/code.rs. -/
def compCode (s : String) : Option String :=
  if s = "0" then some "101010"
  else if s = "1" then some "111111"
  else if s = "-1" then some "111010"
  else if s = "D" then some "001100"
  else if s = "A" ∨ s = "M" then some "110000"
  else if s = "!D" then some "001101"
  else if s = "!A" ∨ s = "!M" then some "110001"
  else if s = "-D" then some "001111"
  else if s = "-A" ∨ s = "-M" then some "110011"
  else if s = "D+1" then some "011111"
  else if s = "A+1" ∨ s = "M+1" then some "110111"
  else if s = "D-1" then some "001110"
  else if s = "A-1" ∨ s = "M-1" then some "110010"
  else if s = "D+A" ∨ s = "D+M" then some "000010"
  else if s = "D-A" ∨ s = "D-M" then some "010011"
  else if s = "A-D" ∨ s = "M-D" then some "000111"
  else if s = "D&A" ∨ s = "D&M" then some "000000"
  else if s = "D|A" ∨ s = "D|M" then some "010101"
  else none

/-- `comp_to_binary` from src/code.rs: a 1-bit M flag followed by the 6-bit
code; `none` models the `unexpected comp` panic. -/
def compToBinary (s : String) : Option String :=
  (compCode s).map (fun c => (if s.data.contains 'M' then "1" else "0") ++ c)

/-- `jump_to_binary` from src/code.rs; `none` models the panic. -/
def jumpToBinary (s : String) : Option String :=
  if s = "" then some "000"
  else if s = "JGT" then some "001"
  else if s = "JEQ" then some "010"
  else if s = "JGE" then some "011"
  else if s = "JLT" then some "100"
  else if s = "JNE" then some "101"
  else if s = "JLE" then some "110"
  else if s = "JMP" then some "111"
  else none

/-- src/symbol_table.rs: the HashMap is modelled as an association list in
which insertion prepends and lookup takes the first match, observably the
same as insert-with-replacement. -/
structure SymbolTable where
  table : List (String × Nat)
  current_address : Nat
deriving DecidableEq

/-- `SymbolTable::new` with the predefined names. -/
def SymbolTable.new : SymbolTable where
  current_address := 16
  table :=
    [("R0", 0), ("R1", 1), ("R2", 2), ("R3", 3), ("R4", 4), ("R5", 5),
     ("R6", 6), ("R7", 7), ("R8", 8), ("R9", 9), ("R10", 10), ("R11", 11),
     ("R12", 12), ("R13", 13), ("R14", 14), ("R15", 15), ("SP", 0),
     ("LCL", 1), ("ARG", 2), ("THIS", 3), ("THAT", 4), ("SCREEN", 16384),
     ("KBD", 24576)]

/-- `SymbolTable::add_label`. -/
def SymbolTable.addLabel (tbl : SymbolTable) (symbol : String)
    (address : Nat) : SymbolTable :=
  { tbl with table := (symbol, address) :: tbl.table }

/-- `SymbolTable::add_variable`: insert at the allocation counter, bump the
counter, return the old counter value together with the new table. -/
def SymbolTable.addVariable (tbl : SymbolTable) (symbol : String) :
    Nat × SymbolTable :=
  (tbl.current_address,
   { table := (symbol, tbl.current_address) :: tbl.table,
     current_address := tbl.current_address + 1 })

/-- `SymbolTable::address`: pure lookup. -/
def SymbolTable.address (tbl : SymbolTable) (symbol : String) : Option Nat :=
  tbl.table.lookup symbol

/-- The mutable state of src/parser.rs. -/
structure ParserState where
  program : List String
  current : Option String
  instruction_index : Nat
deriving DecidableEq

/-- `Parser::has_more_lines`: peek only. -/
def hasMoreLines (st : ParserState) : Bool := !st.program.isEmpty

/-- `Parser::instruction_type` including the `no current instruction`
panic. -/
def instructionTypeOpt : Option String → Option InstructionType
  | none => none
  | some s => instructionType s

/-- `Parser::advance`: drop the run of skippable lines, strip spaces from
the next line, make it current, and bump the instruction index unless the
new current instruction is a label; `none` models the panic raised by the
`instruction_type` call inside `advance`. -/
def advance (st : ParserState) : Option ParserState :=
  let rest := st.program.dropWhile skippable
  let cur := rest.head?.map removeSpaces
  match instructionTypeOpt cur with
  | none => none
  | some t =>
    some { program := rest.tail, current := cur,
           instruction_index :=
             if t = InstructionType.L then st.instruction_index
             else st.instruction_index + 1 }

/-- `Parser::symbol` applied to the current instruction; `none` models the
panics on a missing current instruction or a C instruction. -/
def symbolOpt (st : ParserState) : Option String :=
  match st.current with
  | none => none
  | some c =>
    match instructionType c with
    | some InstructionType.A => some (aSymbol c)
    | some InstructionType.L => some (lSymbol c)
    | _ => none

/-- The fixed C instruction opcode of src/assembler.rs. -/
def cOpcode : String := "111"

/-- `Assembler::add_variable` (src/assembler.rs): table lookup first, then
new-variable allocation for a non numeric symbol, else the literal value. -/
def addVariableA (tbl : SymbolTable) (symbol : String) :
    String × SymbolTable :=
  match tbl.address symbol with
  | some x => (Nat.repr x, tbl)
  | none =>
    if (parseU32 symbol).isNone then
      let r := tbl.addVariable symbol
      (Nat.repr r.1, r.2)
    else (symbol, tbl)

/-- The pass 1 loop of `Assembler::fill_symbol_table`, fuel-driven: while
lines remain, advance and record every label at the current index. -/
def fillLoopF : Nat → ParserState → SymbolTable → Option SymbolTable
  | 0, st, tbl => if st.program.isEmpty then some tbl else none
  | f + 1, st, tbl =>
    if st.program.isEmpty then some tbl
    else
      match advance st with
      | none => none
      | some st2 =>
        match instructionTypeOpt st2.current with
        | some InstructionType.L =>
          match symbolOpt st2 with
          | some sym => fillLoopF f st2 (tbl.addLabel sym st2.instruction_index)
          | none => none
        | some _ => fillLoopF f st2 tbl
        | none => none

/-- `Assembler::fill_symbol_table` over a cloned parser starting at the
beginning of the program. -/
def fillSymbolTable (lines : List String) : Option SymbolTable :=
  fillLoopF lines.length ⟨lines, none, 0⟩ SymbolTable.new

/-- The pass 2 loop of `Assembler::compile`, fuel-driven; the accumulated
string is the output artifact. -/
def compileLoopF : Nat → ParserState → SymbolTable → String → Option String
  | 0, st, _, out => if st.program.isEmpty then some out else none
  | f + 1, st, tbl, out =>
    if st.program.isEmpty then some out
    else
      match advance st with
      | none => none
      | some st2 =>
        match instructionTypeOpt st2.current with
        | some InstructionType.A =>
          match symbolOpt st2 with
          | none => none
          | some sym =>
            let r := addVariableA tbl sym
            match aValueToBinary r.1 with
            | none => none
            | some bits => compileLoopF f st2 r.2 (out ++ bits ++ "\n")
        | some InstructionType.C =>
          match st2.current with
          | none => none
          | some c =>
            match comp c with
            | none => none
            | some cp =>
              match compToBinary cp with
              | none => none
              | some cb =>
                match jumpToBinary (jump c) with
                | none => none
                | some jb =>
                  compileLoopF f st2 tbl
                    (out ++ (cOpcode ++ cb ++ destToBinary (dest c) ++ jb) ++ "\n")
        | some InstructionType.L => compileLoopF f st2 tbl out
        | none => none

/-- `Assembler::compile` starting from the beginning of the program. -/
def compileProgram (lines : List String) (tbl : SymbolTable) : Option String :=
  compileLoopF lines.length ⟨lines, none, 0⟩ tbl ""

/-- `main`: construct, fill the symbol table, compile. -/
def assemble (lines : List String) : Option String :=
  match fillSymbolTable lines with
  | none => none
  | some tbl => compileProgram lines tbl

/-- Structural restatement of the pass 1 loop, one source line at a time. -/
def pass1 : List String → Nat → SymbolTable → Option SymbolTable
  | [], _, tbl => some tbl
  | l :: ls, idx, tbl =>
    if skippable l then
      match ls with
      | [] => none
      | l2 :: ls2 => pass1 (l2 :: ls2) idx tbl
    else
      match instructionType (removeSpaces l) with
      | none => none
      | some InstructionType.L =>
        pass1 ls idx (tbl.addLabel (lSymbol (removeSpaces l)) idx)
      | some _ => pass1 ls (idx + 1) tbl

/-- Structural restatement of the pass 2 loop, one source line at a time. -/
def pass2 : List String → SymbolTable → String → Option String
  | [], _, out => some out
  | l :: ls, tbl, out =>
    if skippable l then
      match ls with
      | [] => none
      | l2 :: ls2 => pass2 (l2 :: ls2) tbl out
    else
      match instructionType (removeSpaces l) with
      | none => none
      | some InstructionType.A =>
        let r := addVariableA tbl (aSymbol (removeSpaces l))
        match aValueToBinary r.1 with
        | none => none
        | some bits => pass2 ls r.2 (out ++ bits ++ "\n")
      | some InstructionType.C =>
        match comp (removeSpaces l) with
        | none => none
        | some cp =>
          match compToBinary cp with
          | none => none
          | some cb =>
            match jumpToBinary (jump (removeSpaces l)) with
            | none => none
            | some jb =>
              pass2 ls tbl
                (out ++ (cOpcode ++ cb ++ destToBinary (dest (removeSpaces l)) ++ jb) ++ "\n")
      | some InstructionType.L => pass2 ls tbl out

/-- Number of real (non label) instructions among the given raw lines. -/
def realCount (ls : List String) : Nat :=
  (ls.filter (fun l => !(skippable l)
      && !(decide (instructionType (removeSpaces l) = some InstructionType.L)))).length

/-- Value of a binary digit string read most significant bit first. -/
def bitsVal (s : String) : Nat :=
  s.data.foldl (fun a c => 2 * a + (if c = '1' then 1 else 0)) 0

/-- Little-endian value of a list of binary digit characters. -/
def ofBitsLE : List Char → Nat
  | [] => 0
  | c :: t => (if c = '1' then 1 else 0) + 2 * ofBitsLE t

/-- The comp mnemonic vocabulary of src/code.rs. -/
def compVocab : List String :=
  ["0", "1", "-1", "D", "A", "M", "!D", "!A", "!M", "-D", "-A", "-M",
   "D+1", "A+1", "M+1", "D-1", "A-1", "M-1", "D+A", "D+M", "D-A", "D-M",
   "A-D", "M-D", "D&A", "D&M", "D|A", "D|M"]

/-- The jump mnemonic vocabulary of src/code.rs. -/
def jumpVocab : List String :=
  ["", "JGT", "JEQ", "JGE", "JLT", "JNE", "JLE", "JMP"]

theorem advance_nil (c : Option String) (i : Nat) :
    advance ⟨[], c, i⟩ = none := rfl

theorem advance_cons_skip {l : String} (ls : List String) (c : Option String)
    (i : Nat) (h : skippable l = true) :
    advance ⟨l :: ls, c, i⟩ = advance ⟨ls, c, i⟩ := by
  simp [advance, List.dropWhile_cons, h]

theorem advance_cons_real_none {l : String} (ls : List String)
    (c : Option String) (i : Nat) (h : skippable l = false)
    (h2 : instructionType (removeSpaces l) = none) :
    advance ⟨l :: ls, c, i⟩ = none := by
  simp [advance, List.dropWhile_cons, h, instructionTypeOpt, h2]

theorem advance_cons_real_some {l : String} (ls : List String)
    (c : Option String) (i : Nat) {t : InstructionType}
    (h : skippable l = false) (h2 : instructionType (removeSpaces l) = some t) :
    advance ⟨l :: ls, c, i⟩ =
      some ⟨ls, some (removeSpaces l),
            if t = InstructionType.L then i else i + 1⟩ := by
  simp [advance, List.dropWhile_cons, h, instructionTypeOpt, h2]

theorem advance_all_skip (ls : List String) (c : Option String) (i : Nat)
    (h : ∀ l ∈ ls, skippable l = true) :
    advance ⟨ls, c, i⟩ = none := by
  induction ls with
  | nil => exact advance_nil c i
  | cons l ls ih =>
    rw [advance_cons_skip ls c i (h l (by simp))]
    exact ih (fun x hx => h x (by simp [hx]))

/-- The fuel-driven pass 1 loop agrees with its structural restatement. -/
theorem fillLoopF_eq_pass1 (ls : List String) :
    ∀ (f : Nat) (c : Option String) (i : Nat) (tbl : SymbolTable),
      ls.length ≤ f → fillLoopF f ⟨ls, c, i⟩ tbl = pass1 ls i tbl := by
  induction ls with
  | nil =>
    intro f c i tbl _
    cases f <;> simp [fillLoopF, pass1]
  | cons l ls ih =>
    intro f c i tbl h
    cases f with
    | zero => simp at h
    | succ f =>
      by_cases hs : skippable l = true
      · cases ls with
        | nil =>
          have ha : advance ⟨[l], c, i⟩ = none := by
            rw [advance_cons_skip [] c i hs]; exact advance_nil c i
          simp [fillLoopF, ha, pass1, hs]
        | cons l2 ls2 =>
          have ha := advance_cons_skip (l2 :: ls2) c i hs
          have step1 : fillLoopF (f + 1) ⟨l :: l2 :: ls2, c, i⟩ tbl
              = fillLoopF (f + 1) ⟨l2 :: ls2, c, i⟩ tbl := by
            simp only [fillLoopF, List.isEmpty_cons, Bool.false_eq_true,
              if_false, ha]
          rw [step1, ih (f + 1) c i tbl (by simp at h ⊢; omega)]
          simp [pass1, hs]
      · have hs2 : skippable l = false := by simpa using hs
        cases h2 : instructionType (removeSpaces l) with
        | none =>
          have ha := advance_cons_real_none ls c i hs2 h2
          conv_rhs => rw [pass1.eq_def]
          simp [fillLoopF, ha, hs2, h2]
        | some t =>
          have ha := advance_cons_real_some ls c i hs2 h2
          have hlen : ls.length ≤ f := by simp at h; omega
          cases t with
          | L =>
            simp at ha
            conv_rhs => rw [pass1.eq_def]
            simp only [fillLoopF, List.isEmpty_cons, Bool.false_eq_true,
              if_false, ha, instructionTypeOpt, h2, symbolOpt]
            rw [ih f (some (removeSpaces l)) i
              (tbl.addLabel (lSymbol (removeSpaces l)) i) hlen]
            simp [hs2, h2]
          | A =>
            simp at ha
            conv_rhs => rw [pass1.eq_def]
            simp only [fillLoopF, List.isEmpty_cons, Bool.false_eq_true,
              if_false, ha, instructionTypeOpt, h2]
            rw [ih f (some (removeSpaces l)) (i + 1) tbl hlen]
            simp [hs2, h2]
          | C =>
            simp at ha
            conv_rhs => rw [pass1.eq_def]
            simp only [fillLoopF, List.isEmpty_cons, Bool.false_eq_true,
              if_false, ha, instructionTypeOpt, h2]
            rw [ih f (some (removeSpaces l)) (i + 1) tbl hlen]
            simp [hs2, h2]

/-- `fill_symbol_table` equals the structural pass 1 from index 0. -/
theorem fillSymbolTable_eq_pass1 (lines : List String) :
    fillSymbolTable lines = pass1 lines 0 SymbolTable.new :=
  fillLoopF_eq_pass1 lines lines.length none 0 SymbolTable.new le_rfl

/-- The fuel-driven pass 2 loop agrees with its structural restatement. -/
theorem compileLoopF_eq_pass2 (ls : List String) :
    ∀ (f : Nat) (c : Option String) (i : Nat) (tbl : SymbolTable)
      (out : String),
      ls.length ≤ f → compileLoopF f ⟨ls, c, i⟩ tbl out = pass2 ls tbl out := by
  induction ls with
  | nil =>
    intro f c i tbl out _
    cases f <;> simp [compileLoopF, pass2]
  | cons l ls ih =>
    intro f c i tbl out h
    cases f with
    | zero => simp at h
    | succ f =>
      by_cases hs : skippable l = true
      · cases ls with
        | nil =>
          have ha : advance ⟨[l], c, i⟩ = none := by
            rw [advance_cons_skip [] c i hs]; exact advance_nil c i
          simp [compileLoopF, ha, pass2, hs]
        | cons l2 ls2 =>
          have ha := advance_cons_skip (l2 :: ls2) c i hs
          have step1 : compileLoopF (f + 1) ⟨l :: l2 :: ls2, c, i⟩ tbl out
              = compileLoopF (f + 1) ⟨l2 :: ls2, c, i⟩ tbl out := by
            simp only [compileLoopF, List.isEmpty_cons, Bool.false_eq_true,
              if_false, ha]
          rw [step1, ih (f + 1) c i tbl out (by simp at h ⊢; omega)]
          simp [pass2, hs]
      · have hs2 : skippable l = false := by simpa using hs
        cases h2 : instructionType (removeSpaces l) with
        | none =>
          have ha := advance_cons_real_none ls c i hs2 h2
          conv_rhs => rw [pass2.eq_def]
          simp [compileLoopF, ha, hs2, h2]
        | some t =>
          have ha := advance_cons_real_some ls c i hs2 h2
          have hlen : ls.length ≤ f := by simp at h; omega
          cases t with
          | L =>
            simp at ha
            conv_rhs => rw [pass2.eq_def]
            simp only [compileLoopF, List.isEmpty_cons, Bool.false_eq_true,
              if_false, ha, instructionTypeOpt, h2]
            rw [ih f (some (removeSpaces l)) i tbl out hlen]
            simp [hs2, h2]
          | A =>
            simp at ha
            conv_rhs => rw [pass2.eq_def]
            simp only [compileLoopF, List.isEmpty_cons, Bool.false_eq_true,
              if_false, ha, instructionTypeOpt, h2, symbolOpt]
            cases h3 : aValueToBinary (addVariableA tbl (aSymbol (removeSpaces l))).1 with
            | none => simp [hs2, h2, h3]
            | some bits =>
              simp only [h3]
              rw [ih f (some (removeSpaces l)) (i + 1)
                (addVariableA tbl (aSymbol (removeSpaces l))).2
                (out ++ bits ++ "\n") hlen]
              simp [hs2, h2, h3]
          | C =>
            simp at ha
            conv_rhs => rw [pass2.eq_def]
            simp only [compileLoopF, List.isEmpty_cons, Bool.false_eq_true,
              if_false, ha, instructionTypeOpt, h2]
            cases h3 : comp (removeSpaces l) with
            | none => simp [hs2, h2, h3]
            | some cp =>
              cases h4 : compToBinary cp with
              | none => simp [hs2, h2, h3, h4]
              | some cb =>
                cases h5 : jumpToBinary (jump (removeSpaces l)) with
                | none => simp [hs2, h2, h3, h4, h5]
                | some jb =>
                  simp only [h3, h4, h5]
                  rw [ih f (some (removeSpaces l)) (i + 1) tbl
                    (out ++ (cOpcode ++ cb ++ destToBinary (dest (removeSpaces l)) ++ jb) ++ "\n")
                    hlen]
                  simp [hs2, h2, h3, h4, h5]

/-- `compile` equals the structural pass 2 from an empty artifact. -/
theorem compileProgram_eq_pass2 (lines : List String) (tbl : SymbolTable) :
    compileProgram lines tbl = pass2 lines tbl "" :=
  compileLoopF_eq_pass2 lines lines.length none 0 tbl "" le_rfl

theorem foldl_bits_reverse (l : List Char) :
    ∀ a : Nat,
      l.reverse.foldl (fun x c => 2 * x + (if c = '1' then 1 else 0)) a
        = a * 2 ^ l.length + ofBitsLE l := by
  induction l with
  | nil => intro a; simp [ofBitsLE]
  | cons c t ih =>
    intro a
    simp only [List.reverse_cons, List.foldl_append, ih, List.foldl_cons,
      List.foldl_nil, ofBitsLE, List.length_cons]
    ring

theorem ofBitsLE_binRev : ∀ (f v : Nat), v ≤ f → ofBitsLE (binRev f v) = v := by
  intro f
  induction f with
  | zero =>
    intro v hv
    have h0 : v = 0 := by omega
    subst h0; simp [binRev, ofBitsLE]
  | succ f ih =>
    intro v hv
    by_cases h0 : v = 0
    · simp [binRev, h0, ofBitsLE]
    · have hdiv : v / 2 ≤ f := by omega
      simp only [binRev, if_neg h0, ofBitsLE, ih (v / 2) hdiv]
      rcases Nat.mod_two_eq_zero_or_one v with h | h
      · simp [bitChar, h]; omega
      · simp [bitChar, h]; omega

theorem binRev_length_le :
    ∀ (f v k : Nat), v < 2 ^ k → (binRev f v).length ≤ k := by
  intro f
  induction f with
  | zero => intro v k _; simp [binRev]
  | succ f ih =>
    intro v k hv
    by_cases h0 : v = 0
    · simp [binRev, h0]
    · have hk : k ≠ 0 := by rintro rfl; rw [pow_zero] at hv; omega
      obtain ⟨k2, rfl⟩ : ∃ k2, k = k2 + 1 := ⟨k - 1, by omega⟩
      have h2 : v / 2 < 2 ^ k2 := by
        have hp : (2 : ℕ) ^ (k2 + 1) = 2 ^ k2 * 2 := by ring
        rw [Nat.div_lt_iff_lt_mul (by norm_num : (0 : ℕ) < 2)]
        omega
      simp only [binRev, if_neg h0, List.length_cons]
      have := ih (v / 2) k2 h2
      omega

theorem binRev_length_ge :
    ∀ (f v k : Nat), v ≤ f → 2 ^ k ≤ v → k + 1 ≤ (binRev f v).length := by
  intro f
  induction f with
  | zero =>
    intro v k hf hk
    have : (0 : ℕ) < 2 ^ k := pow_pos (by norm_num) k
    omega
  | succ f ih =>
    intro v k hf hk
    have hpos : (0 : ℕ) < 2 ^ k := pow_pos (by norm_num) k
    have h0 : v ≠ 0 := by omega
    simp only [binRev, if_neg h0, List.length_cons]
    cases k with
    | zero => omega
    | succ k2 =>
      have h2 : 2 ^ k2 ≤ v / 2 := by
        have hp : (2 : ℕ) ^ (k2 + 1) = 2 ^ k2 * 2 := by ring
        rw [Nat.le_div_iff_mul_le (by norm_num : (0 : ℕ) < 2)]
        omega
      have h3 : v / 2 ≤ f := by omega
      have := ih (v / 2) k2 h3 h2
      omega

theorem foldl_bits_zeros (n : Nat) (l : List Char) :
    (List.replicate n '0' ++ l).foldl
        (fun a c => 2 * a + (if c = '1' then 1 else 0)) 0
      = l.foldl (fun a c => 2 * a + (if c = '1' then 1 else 0)) 0 := by
  induction n with
  | zero => simp
  | succ n ih => simpa [List.replicate_succ] using ih

/-- Reading the rendered binary string back gives the value: zero padding
never changes the value and no digits are dropped. -/
theorem bitsVal_binFmt (width v : Nat) : bitsVal (binFmt width v) = v := by
  by_cases h0 : v = 0
  · subst h0
    simp only [binFmt, if_pos rfl, bitsVal]
    rw [foldl_bits_zeros]
    simp
  · simp only [binFmt, if_neg h0, bitsVal]
    rw [foldl_bits_zeros, foldl_bits_reverse]
    simp [ofBitsLE_binRev v v le_rfl]

/-- Values below `2 ^ width` render to exactly `width` characters. -/
theorem binFmt_length (width v : Nat) (hw : 0 < width) (hv : v < 2 ^ width) :
    (binFmt width v).length = width := by
  by_cases h0 : v = 0
  · subst h0
    simp [binFmt, String.length]
    omega
  · have hle := binRev_length_le v v width hv
    simp only [binFmt, if_neg h0, String.length]
    simp only [List.length_append, List.length_replicate, List.length_reverse]
    omega

/-- Values of at least `2 ^ width` render to more than `width` characters:
the format does not truncate and does not fail. -/
theorem binFmt_length_gt (width v : Nat) (hv : 2 ^ width ≤ v) :
    width < (binFmt width v).length := by
  have hpos : (0 : ℕ) < 2 ^ width := pow_pos (by norm_num) width
  have h0 : v ≠ 0 := by omega
  have hge := binRev_length_ge v v width le_rfl hv
  simp only [binFmt, if_neg h0, String.length]
  simp only [List.length_append, List.length_replicate, List.length_reverse]
  omega

theorem binRev_chars : ∀ (f v : Nat), ∀ c ∈ binRev f v, c = '0' ∨ c = '1' := by
  intro f
  induction f with
  | zero => intro v c hc; simp [binRev] at hc
  | succ f ih =>
    intro v c hc
    by_cases h0 : v = 0
    · simp [binRev, h0] at hc
    · simp only [binRev, if_neg h0, List.mem_cons] at hc
      rcases hc with rfl | hc
      · unfold bitChar; split <;> simp
      · exact ih (v / 2) c hc

theorem binFmt_chars (width v : Nat) :
    ∀ c ∈ (binFmt width v).data, c = '0' ∨ c = '1' := by
  intro c hc
  by_cases h0 : v = 0
  · subst h0
    simp only [binFmt, if_pos rfl] at hc
    rcases List.mem_append.mp hc with hm | hm
    · left; exact List.eq_of_mem_replicate hm
    · simp at hm; left; exact hm
  · simp only [binFmt, if_neg h0] at hc
    rcases List.mem_append.mp hc with hm | hm
    · left; exact List.eq_of_mem_replicate hm
    · exact binRev_chars v v c (List.mem_reverse.mp hm)

/-- A successful `u32` parse is below `2 ^ 32`. -/
theorem parseU32_lt {s : String} {v : Nat} (h : parseU32 s = some v) :
    v < 4294967296 := by
  simp only [parseU32] at h
  split_ifs at h with h1 h2 h3
  simp_all

theorem address_addLabel_self (tbl : SymbolTable) (name : String) (a : Nat) :
    (tbl.addLabel name a).address name = some a := by
  simp [SymbolTable.address, SymbolTable.addLabel, List.lookup]

theorem address_addLabel_ne (tbl : SymbolTable) {s name : String}
    (h : s ≠ name) (a : Nat) :
    (tbl.addLabel s a).address name = tbl.address name := by
  have hb : (name == s) = false := beq_eq_false_iff_ne.mpr (Ne.symm h)
  simp [SymbolTable.address, SymbolTable.addLabel, List.lookup, hb]

theorem dropWhile_beq_head_ne {ch : Char} (l : List Char)
    (h : l.head? ≠ some ch) :
    l.dropWhile (fun c => c == ch) = l := by
  cases l with
  | nil => rfl
  | cons a as =>
    have hb : (a == ch) = false := by
      refine beq_eq_false_iff_ne.mpr ?_
      intro he; exact h (by simp [he])
    simp [List.dropWhile_cons, hb]

theorem labelLine_data (name : String) :
    ("(" ++ name ++ ")").data = '(' :: (name.data ++ [')']) := by
  simp [String.data_append]

theorem removeSpaces_data (s : String) :
    (removeSpaces s).data = s.data.filter (fun c => c != ' ') := rfl

theorem removeSpaces_labelLine {name : String} (hn1 : ' ' ∉ name.data) :
    removeSpaces ("(" ++ name ++ ")") = "(" ++ name ++ ")" := by
  apply String.ext
  rw [removeSpaces_data, labelLine_data]
  rw [List.filter_eq_self]
  intro a ha
  simp at ha
  rcases ha with h | h | h
  · subst h; decide
  · simp only [bne_iff_ne, ne_eq]
    intro he; exact hn1 (he ▸ h)
  · subst h; decide

theorem skippable_labelLine {name : String} (hn1 : ' ' ∉ name.data) :
    skippable ("(" ++ name ++ ")") = false := by
  unfold skippable
  rw [removeSpaces_labelLine hn1, labelLine_data]
  simp

theorem instructionType_labelLine (name : String) :
    instructionType ("(" ++ name ++ ")") = some InstructionType.L := by
  unfold instructionType
  rw [labelLine_data]
  simp

theorem lSymbol_labelLine {name : String}
    (hn2 : name.data.head? ≠ some '(') (hn3 : name.data.getLast? ≠ some ')') :
    lSymbol ("(" ++ name ++ ")") = name := by
  unfold lSymbol
  rw [labelLine_data, List.dropWhile_cons]
  simp only [beq_self_eq_true, if_true]
  rw [dropWhile_beq_head_ne (name.data ++ [')'])
    (by
      cases hd : name.data with
      | nil => simp
      | cons a as =>
        simp only [hd, List.cons_append, List.head?_cons]
        simpa [hd] using hn2)]
  rw [List.reverse_append]
  simp only [List.reverse_singleton, List.singleton_append, List.dropWhile_cons,
    beq_self_eq_true, if_true]
  rw [dropWhile_beq_head_ne name.data.reverse
    (by rw [List.head?_reverse]; exact hn3)]
  rw [List.reverse_reverse]

/-- A program whose final line is skippable makes pass 1 fail: the loop sees
remaining lines, `advance` consumes them all and leaves no current
instruction, and `instruction_type` then panics. -/
theorem pass1_trailing {t : String} (ht : skippable t = true) :
    ∀ (ys : List String) (idx : Nat) (tbl : SymbolTable),
      pass1 (ys ++ [t]) idx tbl = none := by
  intro ys
  induction ys with
  | nil => intro idx tbl; simp [pass1, ht]
  | cons y ys ih =>
    intro idx tbl
    rw [List.cons_append, pass1.eq_def]
    by_cases hy : skippable y = true
    · simp only [hy, if_true]
      cases hys : ys ++ [t] with
      | nil => simp at hys
      | cons a b =>
        have := ih idx tbl
        rw [hys] at this
        exact this
    · have hy2 : skippable y = false := by simpa using hy
      simp only [hy2, Bool.false_eq_true, if_false]
      cases h2 : instructionType (removeSpaces y) with
      | none => simp
      | some t2 => cases t2 <;> simp [ih]

/-- Same for pass 2. -/
theorem pass2_trailing {t : String} (ht : skippable t = true) :
    ∀ (ys : List String) (tbl : SymbolTable) (out : String),
      pass2 (ys ++ [t]) tbl out = none := by
  intro ys
  induction ys with
  | nil => intro tbl out; simp [pass2, ht]
  | cons y ys ih =>
    intro tbl out
    rw [List.cons_append, pass2.eq_def]
    by_cases hy : skippable y = true
    · simp only [hy, if_true]
      cases hys : ys ++ [t] with
      | nil => simp at hys
      | cons a b =>
        have := ih tbl out
        rw [hys] at this
        exact this
    · have hy2 : skippable y = false := by simpa using hy
      simp only [hy2, Bool.false_eq_true, if_false]
      cases h2 : instructionType (removeSpaces y) with
      | none => simp
      | some t2 =>
        cases t2 with
        | A =>
          cases h3 : aValueToBinary (addVariableA tbl (aSymbol (removeSpaces y))).1 with
          | none => simp [h3]
          | some bits => simp [h3, ih]
        | C =>
          cases h3 : comp (removeSpaces y) with
          | none => simp [h3]
          | some cp =>
            simp only [h3]
            cases h4 : compToBinary cp with
            | none => simp [h4]
            | some cb =>
              simp only [h4]
              cases h5 : jumpToBinary (jump (removeSpaces y)) with
              | none => simp [h5]
              | some jb => simp only [h5]; exact ih tbl _
        | L => simp [ih]

/-- Pass 1 never changes the binding of a name that is not defined as a
label in the remaining lines. -/
theorem pass1_preserves_other (name : String) :
    ∀ (post : List String) (idx : Nat) (tbl tbl2 : SymbolTable),
      pass1 post idx tbl = some tbl2 →
      (∀ l ∈ post, instructionType (removeSpaces l) = some InstructionType.L →
        lSymbol (removeSpaces l) ≠ name) →
      tbl2.address name = tbl.address name := by
  intro post
  induction post with
  | nil =>
    intro idx tbl tbl2 h hno
    simp [pass1] at h
    rw [h]
  | cons l ls ih =>
    intro idx tbl tbl2 h hno
    rw [pass1.eq_def] at h
    by_cases hs : skippable l = true
    · simp only [hs, if_true] at h
      cases hys : ls with
      | nil => rw [hys] at h; simp at h
      | cons a b =>
        rw [hys] at h
        refine ih idx tbl tbl2 ?_ (fun x hx => hno x (by simp [hx]))
        rw [hys]
        exact h
    · have hs2 : skippable l = false := by simpa using hs
      simp only [hs2, Bool.false_eq_true, if_false] at h
      cases h2 : instructionType (removeSpaces l) with
      | none => rw [h2] at h; simp at h
      | some t =>
        rw [h2] at h
        cases t with
        | L =>
          have hname : lSymbol (removeSpaces l) ≠ name := hno l (by simp) h2
          have hr := ih idx (tbl.addLabel (lSymbol (removeSpaces l)) idx) tbl2
            (by simpa using h) (fun x hx => hno x (by simp [hx]))
          rw [hr, address_addLabel_ne tbl hname idx]
        | A =>
          exact ih (idx + 1) tbl tbl2 (by simpa using h)
            (fun x hx => hno x (by simp [hx]))
        | C =>
          exact ih (idx + 1) tbl tbl2 (by simpa using h)
            (fun x hx => hno x (by simp [hx]))

/-- Where pass 1 records a label: at the number of real instructions that
precede it (plus the starting index). -/
theorem pass1_label_at (name : String)
    (hn1 : ' ' ∉ name.data) (hn2 : name.data.head? ≠ some '(')
    (hn3 : name.data.getLast? ≠ some ')') :
    ∀ (pre post : List String) (idx : Nat) (tbl tbl2 : SymbolTable),
      (∀ l ∈ post, instructionType (removeSpaces l) = some InstructionType.L →
        lSymbol (removeSpaces l) ≠ name) →
      pass1 (pre ++ ("(" ++ name ++ ")") :: post) idx tbl = some tbl2 →
      tbl2.address name = some (idx + realCount pre) := by
  intro pre
  induction pre with
  | nil =>
    intro post idx tbl tbl2 hpost h
    rw [List.nil_append, pass1.eq_def] at h
    simp only [skippable_labelLine hn1, Bool.false_eq_true, if_false,
      removeSpaces_labelLine hn1, instructionType_labelLine name,
      lSymbol_labelLine hn2 hn3] at h
    have hr := pass1_preserves_other name post idx
      (tbl.addLabel name idx) tbl2 (by simpa using h) hpost
    rw [hr, address_addLabel_self]
    simp [realCount]
  | cons l pre2 ih =>
    intro post idx tbl tbl2 hpost h
    rw [List.cons_append, pass1.eq_def] at h
    by_cases hs : skippable l = true
    · simp only [hs, if_true] at h
      cases hys : pre2 ++ ("(" ++ name ++ ")") :: post with
      | nil => simp at hys
      | cons a b =>
        rw [hys] at h
        have := ih post idx tbl tbl2 hpost (by rw [hys]; exact h)
        rw [this]
        congr 1
        simp [realCount, List.filter_cons, hs]
    · have hs2 : skippable l = false := by simpa using hs
      simp only [hs2, Bool.false_eq_true, if_false] at h
      cases h2 : instructionType (removeSpaces l) with
      | none => rw [h2] at h; simp at h
      | some t =>
        rw [h2] at h
        cases t with
        | L =>
          have := ih post idx (tbl.addLabel (lSymbol (removeSpaces l)) idx)
            tbl2 hpost (by simpa using h)
          rw [this]
          congr 1
          simp [realCount, List.filter_cons, hs2, h2]
        | A =>
          have := ih post (idx + 1) tbl tbl2 hpost (by simpa using h)
          rw [this]
          congr 1
          have hrc : realCount (l :: pre2) = realCount pre2 + 1 := by
            simp [realCount, List.filter_cons, hs2, h2]
          omega
        | C =>
          have := ih post (idx + 1) tbl tbl2 hpost (by simpa using h)
          rw [this]
          congr 1
          have hrc : realCount (l :: pre2) = realCount pre2 + 1 := by
            simp [realCount, List.filter_cons, hs2, h2]
          omega

theorem advance_skip_run (pre ls : List String) (c : Option String) (i : Nat)
    (hpre : ∀ p ∈ pre, skippable p = true) :
    advance ⟨pre ++ ls, c, i⟩ = advance ⟨ls, c, i⟩ := by
  revert hpre
  induction pre with
  | nil => intro _; rfl
  | cons p ps ih =>
    intro hpre
    rw [List.cons_append, advance_cons_skip _ c i (hpre p (by simp))]
    exact ih (fun x hx => hpre x (by simp [hx]))

theorem compCode_eq_none_iff (s : String) :
    compCode s = none ↔ s ∉ compVocab := by
  constructor
  · intro h hmem
    simp only [compVocab, List.mem_cons, List.not_mem_nil, or_false] at hmem
    obtain rfl | rfl | rfl | rfl | rfl | rfl | rfl | rfl | rfl | rfl | rfl |
      rfl | rfl | rfl | rfl | rfl | rfl | rfl | rfl | rfl | rfl | rfl | rfl |
      rfl | rfl | rfl | rfl | rfl := hmem
    all_goals exact absurd h (by decide)
  · intro h
    simp only [compVocab, List.mem_cons, List.not_mem_nil, or_false,
      not_or] at h
    obtain ⟨n1, n2, n3, n4, n5, n6, n7, n8, n9, n10, n11, n12, n13, n14,
      n15, n16, n17, n18, n19, n20, n21, n22, n23, n24, n25, n26, n27,
      n28⟩ := h
    unfold compCode
    rw [if_neg n1, if_neg n2, if_neg n3, if_neg n4,
      if_neg (not_or.mpr ⟨n5, n6⟩), if_neg n7,
      if_neg (not_or.mpr ⟨n8, n9⟩), if_neg n10,
      if_neg (not_or.mpr ⟨n11, n12⟩), if_neg n13,
      if_neg (not_or.mpr ⟨n14, n15⟩), if_neg n16,
      if_neg (not_or.mpr ⟨n17, n18⟩),
      if_neg (not_or.mpr ⟨n19, n20⟩),
      if_neg (not_or.mpr ⟨n21, n22⟩),
      if_neg (not_or.mpr ⟨n23, n24⟩),
      if_neg (not_or.mpr ⟨n25, n26⟩),
      if_neg (not_or.mpr ⟨n27, n28⟩)]

theorem compToBinary_eq_none_iff (s : String) :
    compToBinary s = none ↔ s ∉ compVocab := by
  rw [← compCode_eq_none_iff]
  unfold compToBinary
  cases compCode s <;> simp

theorem jumpToBinary_eq_none_iff (s : String) :
    jumpToBinary s = none ↔ s ∉ jumpVocab := by
  constructor
  · intro h hmem
    simp only [jumpVocab, List.mem_cons, List.not_mem_nil, or_false] at hmem
    obtain rfl | rfl | rfl | rfl | rfl | rfl | rfl | rfl := hmem
    all_goals exact absurd h (by decide)
  · intro h
    simp only [jumpVocab, List.mem_cons, List.not_mem_nil, or_false,
      not_or] at h
    obtain ⟨n1, n2, n3, n4, n5, n6, n7, n8⟩ := h
    unfold jumpToBinary
    rw [if_neg n1, if_neg n2, if_neg n3, if_neg n4, if_neg n5, if_neg n6,
      if_neg n7, if_neg n8]

theorem destToBinary_length (s : String) : (destToBinary s).length = 3 := by
  unfold destToBinary
  refine binFmt_length 3 _ (by norm_num) ?_
  split_ifs <;> norm_num

/-- C1: the claim says `comp` on a full dest=comp;jump instruction returns
the substring strictly between the equals sign and the semicolon. The code
instead returns everything after the first equals sign: for the well formed
C instruction D=M;JMP, `comp` returns M;JMP (which still contains the jump
field) instead of M, the comp encoder rejects that string, and pass 2 of
the pipeline fails on the instruction — contradicting the documented form
dest=comp;jump in the accessor comment of src/parser.rs. -/
theorem c1_comp_includes_jump :
    instructionType "D=M;JMP" = some InstructionType.C
    ∧ comp "D=M;JMP" = some "M;JMP"
    ∧ "M;JMP" ≠ "M"
    ∧ dest "D=M;JMP" = "D"
    ∧ jump "D=M;JMP" = "JMP"
    ∧ compToBinary "M;JMP" = none
    ∧ pass2 ["D=M;JMP"] SymbolTable.new "" = none
    ∧ compileProgram ["D=M;JMP"] SymbolTable.new = none := by
  refine ⟨by decide, by decide, by decide, by decide, by decide, by decide,
    by decide, by decide⟩

/-- C2: a label line preceded by exactly k real (non label) instructions is
registered in the symbol table at address k. If pass 1 succeeds on
pre ++ [(name)] ++ post and no other label line defines the same name, the
resulting table maps the name to the number of non skippable, non label
lines of pre: advance bumps the index once per real instruction, and the
label is recorded at the index current when it is reached. -/
theorem c2_label_address (pre post : List String) (name : String)
    (tbl2 : SymbolTable)
    (hn1 : ' ' ∉ name.data) (hn2 : name.data.head? ≠ some '(')
    (hn3 : name.data.getLast? ≠ some ')')
    (hpost : ∀ l ∈ post,
      instructionType (removeSpaces l) = some InstructionType.L →
      lSymbol (removeSpaces l) ≠ name)
    (h : fillSymbolTable (pre ++ ("(" ++ name ++ ")") :: post) = some tbl2) :
    tbl2.address name = some (realCount pre) := by
  rw [fillSymbolTable_eq_pass1] at h
  simpa using
    pass1_label_at name hn1 hn2 hn3 pre post 0 SymbolTable.new tbl2 hpost h

/-- Witness for C2: two real instructions and an unrelated label before
(LOOP), so LOOP is registered at address 2. -/
theorem c2_label_address_witness :
    ((fillSymbolTable
        (["@2", "0;JMP", "(OTHER)"] ++ ("(" ++ "LOOP" ++ ")") :: ["@LOOP"])).getD
      SymbolTable.new).address "LOOP" = some 2 := by
  have h : fillSymbolTable
      (["@2", "0;JMP", "(OTHER)"] ++ ("(" ++ "LOOP" ++ ")") :: ["@LOOP"])
      = some ((fillSymbolTable
          (["@2", "0;JMP", "(OTHER)"] ++ ("(" ++ "LOOP" ++ ")") :: ["@LOOP"])).getD
        SymbolTable.new) := by decide
  exact c2_label_address ["@2", "0;JMP", "(OTHER)"] ["@LOOP"] "LOOP" _
    (by decide) (by decide) (by decide) (by decide) h

/-- C3: the pass 2 resolution of an address symbol follows the precedence
lookup, then allocation for non numeric unseen symbols, then the literal;
starting from a fresh table, the first unseen non numeric symbol resolves
to 16, a second distinct one to 17, and repeated encounters of either
resolve to the same address without changing the table. -/
theorem c3_variable_resolution (s1 s2 : String) (tbl : SymbolTable)
    (s : String)
    (h1 : SymbolTable.new.address s1 = none) (hp1 : parseU32 s1 = none)
    (h2 : SymbolTable.new.address s2 = none) (hp2 : parseU32 s2 = none)
    (hne : s1 ≠ s2) :
    (∀ x, tbl.address s = some x → addVariableA tbl s = (Nat.repr x, tbl))
    ∧ (tbl.address s = none → parseU32 s = none →
        addVariableA tbl s
          = (Nat.repr tbl.current_address,
             ⟨(s, tbl.current_address) :: tbl.table, tbl.current_address + 1⟩))
    ∧ (∀ v, tbl.address s = none → parseU32 s = some v →
        addVariableA tbl s = (s, tbl))
    ∧ (addVariableA SymbolTable.new s1).1 = "16"
    ∧ (addVariableA (addVariableA SymbolTable.new s1).2 s2).1 = "17"
    ∧ addVariableA (addVariableA (addVariableA SymbolTable.new s1).2 s2).2 s1
        = ("16", (addVariableA (addVariableA SymbolTable.new s1).2 s2).2)
    ∧ addVariableA (addVariableA (addVariableA SymbolTable.new s1).2 s2).2 s2
        = ("17", (addVariableA (addVariableA SymbolTable.new s1).2 s2).2) := by
  have hb21 : (s2 == s1) = false := beq_eq_false_iff_ne.mpr (Ne.symm hne)
  have hb12 : (s1 == s2) = false := beq_eq_false_iff_ne.mpr hne
  have hr16 : Nat.repr 16 = "16" := rfl
  have hr17 : Nat.repr 17 = "17" := rfl
  have e1 : addVariableA SymbolTable.new s1
      = ("16", ⟨(s1, 16) :: SymbolTable.new.table, 17⟩) := by
    simp only [addVariableA, h1, hp1, Option.isNone_none, if_true]
    simp [SymbolTable.addVariable, SymbolTable.new, hr16]
  have ha2 : SymbolTable.address ⟨(s1, 16) :: SymbolTable.new.table, 17⟩ s2
      = none := by
    simp only [SymbolTable.address, List.lookup, hb21]
    exact h2
  have e2 : addVariableA ⟨(s1, 16) :: SymbolTable.new.table, 17⟩ s2
      = ("17", ⟨(s2, 17) :: (s1, 16) :: SymbolTable.new.table, 18⟩) := by
    simp only [addVariableA, ha2, hp2, Option.isNone_none, if_true]
    simp [SymbolTable.addVariable, hr17]
  have ha3 : SymbolTable.address
      ⟨(s2, 17) :: (s1, 16) :: SymbolTable.new.table, 18⟩ s1 = some 16 := by
    simp [SymbolTable.address, List.lookup, hb12]
  have ha4 : SymbolTable.address
      ⟨(s2, 17) :: (s1, 16) :: SymbolTable.new.table, 18⟩ s2 = some 17 := by
    simp [SymbolTable.address, List.lookup]
  refine ⟨?_, ?_, ?_, ?_, ?_, ?_, ?_⟩
  · intro x hx; simp [addVariableA, hx]
  · intro hx hp
    simp only [addVariableA, hx, hp, Option.isNone_none, if_true]
    simp [SymbolTable.addVariable]
  · intro v hx hp; simp [addVariableA, hx, hp]
  · rw [e1]
  · rw [e1, e2]
  · rw [e1, e2]
    simp only [addVariableA, ha3]
    simp [hr16]
  · rw [e1, e2]
    simp only [addVariableA, ha4]
    simp [hr17]

/-- Witness for C3 at the symbols i and sum: addresses 16, 17, then 16
again for the repeat. -/
theorem c3_variable_resolution_witness :
    (addVariableA SymbolTable.new "i").1 = "16"
    ∧ (addVariableA (addVariableA SymbolTable.new "i").2 "sum").1 = "17"
    ∧ addVariableA
        (addVariableA (addVariableA SymbolTable.new "i").2 "sum").2 "i"
        = ("16", (addVariableA (addVariableA SymbolTable.new "i").2 "sum").2) := by
  have h := c3_variable_resolution "i" "sum" SymbolTable.new "x"
    (by decide) (by decide) (by decide) (by decide) (by decide)
  exact ⟨h.2.2.2.1, h.2.2.2.2.1, h.2.2.2.2.2.1⟩

/-- C4 counterexample: the claim says encoding fails for values above
65535, but 65536 encodes successfully to a 17 character binary string. -/
theorem c4_counterexample :
    aValueToBinary "65536" = some "10000000000000000"
    ∧ ("10000000000000000" : String).length = 17 := by
  refine ⟨by decide, by decide⟩

/-- C4 amended: address encoding fails exactly when the string does not
parse as an unsigned 32 bit integer; for parsed values up to 65535 the
output is the 16 character zero padded binary representation of the value;
for parsed values needing more than 16 bits the call still succeeds and
returns a longer binary string. -/
theorem c4_a_value_encoding (s : String) :
    (parseU32 s = none → aValueToBinary s = none)
    ∧ (∀ v, parseU32 s = some v → v ≤ 65535 →
        aValueToBinary s = some (binFmt 16 v)
        ∧ (binFmt 16 v).length = 16
        ∧ bitsVal (binFmt 16 v) = v
        ∧ ∀ c ∈ (binFmt 16 v).data, c = '0' ∨ c = '1')
    ∧ (∀ v, parseU32 s = some v → 65536 ≤ v →
        aValueToBinary s = some (binFmt 16 v)
        ∧ 16 < (binFmt 16 v).length
        ∧ bitsVal (binFmt 16 v) = v) := by
  refine ⟨?_, ?_, ?_⟩
  · intro h; simp [aValueToBinary, h]
  · intro v hv hle
    refine ⟨by simp [aValueToBinary, hv], ?_, bitsVal_binFmt 16 v,
      binFmt_chars 16 v⟩
    refine binFmt_length 16 v (by norm_num) ?_
    norm_num
    omega
  · intro v hv hge
    refine ⟨by simp [aValueToBinary, hv], ?_, bitsVal_binFmt 16 v⟩
    refine binFmt_length_gt 16 v ?_
    norm_num
    omega

/-- Witness for C4 at 12345. -/
theorem c4_a_value_encoding_witness :
    aValueToBinary "12345" = some (binFmt 16 12345)
    ∧ (binFmt 16 12345).length = 16
    ∧ bitsVal (binFmt 16 12345) = 12345
    ∧ ∀ c ∈ (binFmt 16 12345).data, c = '0' ∨ c = '1' :=
  (c4_a_value_encoding "12345").2.1 12345 (by decide) (by decide)

/-- C5 counterexample: the claim says advance strips whitespace of every
kind and discards purely-whitespace lines. A line holding a single tab
character is not discarded (only spaces are removed before the emptiness
test), so advance fails on it instead of reaching the following real
instruction @1, and a tab inside a line survives the stripping. -/
theorem c5_counterexample :
    skippable "\t" = false
    ∧ advance ⟨["\t", "@1"], none, 0⟩ = none
    ∧ removeSpaces "\tD = A" = "\tD=A" := by
  refine ⟨by decide, by decide, by decide⟩

/-- C5 amended: advance removes space characters (U+0020) only — a
character of the line survives the stripping exactly when it is not a
space — discards the run of lines that are empty or comment prefixed after
space removal, and makes the next real line (space stripped) the current
instruction, bumping the index unless it is a label. -/
theorem c5_advance_spaces (pre rest : List String) (l : String)
    (c : Option String) (i : Nat)
    (hpre : ∀ p ∈ pre, skippable p = true) (hl : skippable l = false) :
    advance ⟨pre ++ l :: rest, c, i⟩ = advance ⟨l :: rest, c, i⟩
    ∧ (∀ ch, ch ∈ (removeSpaces l).data ↔ (ch ∈ l.data ∧ ch ≠ ' '))
    ∧ (instructionType (removeSpaces l) = none →
        advance ⟨l :: rest, c, i⟩ = none)
    ∧ (∀ t, instructionType (removeSpaces l) = some t →
        advance ⟨l :: rest, c, i⟩
          = some ⟨rest, some (removeSpaces l),
                  if t = InstructionType.L then i else i + 1⟩) := by
  refine ⟨advance_skip_run pre (l :: rest) c i hpre, ?_, ?_, ?_⟩
  · intro ch
    rw [removeSpaces_data, List.mem_filter]
    simp
  · exact advance_cons_real_none rest c i hl
  · intro t ht; exact advance_cons_real_some rest c i hl ht

/-- Witness for C5: a blank line and a comment line are discarded, the
spaces inside @ 2 are stripped, and the index is bumped. -/
theorem c5_advance_spaces_witness :
    advance ⟨["", "// x"] ++ "@ 2" :: ["@3"], none, 0⟩
      = advance ⟨"@ 2" :: ["@3"], none, 0⟩
    ∧ (∀ ch, ch ∈ (removeSpaces "@ 2").data ↔ (ch ∈ "@ 2".data ∧ ch ≠ ' '))
    ∧ (instructionType (removeSpaces "@ 2") = none →
        advance ⟨"@ 2" :: ["@3"], none, 0⟩ = none)
    ∧ (∀ t, instructionType (removeSpaces "@ 2") = some t →
        advance ⟨"@ 2" :: ["@3"], none, 0⟩
          = some ⟨["@3"], some (removeSpaces "@ 2"),
                  if t = InstructionType.L then 0 else 0 + 1⟩) :=
  c5_advance_spaces ["", "// x"] ["@3"] "@ 2" none 0 (by decide) (by decide)

/-- C6: when only blank or comment lines remain, has_more_lines still
reports true, the next advance consumes them and fails with no current
instruction, and pass 1, pass 2 and the whole pipeline abort (produce no
output) on any program ending in such a trailing run. -/
theorem c6_trailing_junk_aborts (lines trailing : List String)
    (c : Option String) (i : Nat) (tbl : SymbolTable)
    (hne : trailing ≠ [])
    (hskip : ∀ l ∈ trailing, skippable l = true) :
    hasMoreLines ⟨trailing, c, i⟩ = true
    ∧ advance ⟨trailing, c, i⟩ = none
    ∧ fillSymbolTable (lines ++ trailing) = none
    ∧ compileProgram (lines ++ trailing) tbl = none
    ∧ assemble (lines ++ trailing) = none := by
  have hm : hasMoreLines ⟨trailing, c, i⟩ = true := by
    cases trailing with
    | nil => exact absurd rfl hne
    | cons a b => simp [hasMoreLines]
  obtain ⟨ys, t, rfl⟩ : ∃ ys t, trailing = ys ++ [t] := by
    rcases List.eq_nil_or_concat trailing with h | ⟨ys, t, h⟩
    · exact absurd h hne
    · exact ⟨ys, t, by simpa [List.concat_eq_append] using h⟩
  have ht : skippable t = true := hskip t (by simp)
  have h1 : fillSymbolTable (lines ++ (ys ++ [t])) = none := by
    rw [fillSymbolTable_eq_pass1,
      show lines ++ (ys ++ [t]) = (lines ++ ys) ++ [t] by simp]
    exact pass1_trailing ht (lines ++ ys) 0 SymbolTable.new
  refine ⟨hm, advance_all_skip _ c i hskip, h1, ?_, ?_⟩
  · rw [compileProgram_eq_pass2,
      show lines ++ (ys ++ [t]) = (lines ++ ys) ++ [t] by simp]
    exact pass2_trailing ht (lines ++ ys) tbl ""
  · simp [assemble, h1]

/-- Witness for C6: a one instruction program followed by a trailing
comment line aborts the whole pipeline. -/
theorem c6_trailing_junk_aborts_witness :
    hasMoreLines ⟨["// end"], none, 0⟩ = true
    ∧ advance ⟨["// end"], none, 0⟩ = none
    ∧ fillSymbolTable (["@1"] ++ ["// end"]) = none
    ∧ compileProgram (["@1"] ++ ["// end"]) SymbolTable.new = none
    ∧ assemble (["@1"] ++ ["// end"]) = none :=
  c6_trailing_junk_aborts ["@1"] ["// end"] none 0 SymbolTable.new
    (by decide) (by decide)

/-- C7 counterexample: the claim says every encoding table fails on input
outside its vocabulary, in particular the dest encoder. The dest encoder is
total: a mnemonic containing none of A, D, M is mapped to 000 instead of
failing. -/
theorem c7_counterexample :
    destToBinary "XYZ" = "000" ∧ destToBinary "dm*" = "000" := by
  refine ⟨by decide, by decide⟩

/-- C7 amended: comp and jump encodings fail exactly outside their fixed
vocabularies, and address value encoding fails exactly when the u32 parse
fails; dest encoding however is total and maps every string, recognized or
not, to a 3 character code determined by M, D, A presence. -/
theorem c7_encoding_failure (s : String) :
    (compToBinary s = none ↔ s ∉ compVocab)
    ∧ (jumpToBinary s = none ↔ s ∉ jumpVocab)
    ∧ (aValueToBinary s = none ↔ parseU32 s = none)
    ∧ (destToBinary s).length = 3 := by
  refine ⟨compToBinary_eq_none_iff s, jumpToBinary_eq_none_iff s, ?_,
    destToBinary_length s⟩
  unfold aValueToBinary
  cases parseU32 s <;> simp

/-- C8: comp encoding is the 1 bit M flag followed by the fixed 6 bit code,
defined exactly on the comp vocabulary, with the examples D+1, A-1, M-1. -/
theorem c8_comp_encoding :
    compToBinary "D+1" = some "0011111"
    ∧ compToBinary "A-1" = some "0110010"
    ∧ compToBinary "M-1" = some "1110010"
    ∧ (∀ s ∈ compVocab,
        ((compCode s).getD "").length = 6
        ∧ compToBinary s
            = some ((if s.data.contains 'M' then "1" else "0")
                ++ (compCode s).getD ""))
    ∧ (∀ s, s ∉ compVocab → compToBinary s = none) := by
  refine ⟨by decide, by decide, by decide, by decide, ?_⟩
  intro s hs
  exact (compToBinary_eq_none_iff s).mpr hs

/-- Witness for C8: the mnemonic D&M is in the vocabulary and D&&M is
outside it. -/
theorem c8_comp_encoding_witness :
    (((compCode "D&M").getD "").length = 6
      ∧ compToBinary "D&M"
          = some ((if "D&M".data.contains 'M' then "1" else "0")
              ++ (compCode "D&M").getD ""))
    ∧ compToBinary "D&&M" = none :=
  ⟨c8_comp_encoding.2.2.2.1 "D&M" (by decide),
   c8_comp_encoding.2.2.2.2 "D&&M" (by decide)⟩

/-- C9: dest encoding renders the sum of M (1), D (2), A (4) presence as
three binary digits, for every string; examples M, MD, AMD and the empty
dest. -/
theorem c9_dest_encoding :
    destToBinary "M" = "001"
    ∧ destToBinary "MD" = "011"
    ∧ destToBinary "AMD" = "111"
    ∧ destToBinary "" = "000"
    ∧ (∀ s, destToBinary s
        = binFmt 3 ((if s.data.contains 'M' then 1 else 0)
            + (if s.data.contains 'D' then 2 else 0)
            + (if s.data.contains 'A' then 4 else 0)))
    ∧ (∀ s, bitsVal (destToBinary s)
        = (if s.data.contains 'M' then 1 else 0)
          + (if s.data.contains 'D' then 2 else 0)
          + (if s.data.contains 'A' then 4 else 0))
    ∧ (∀ s, (destToBinary s).length = 3) := by
  refine ⟨by decide, by decide, by decide, by decide, fun s => rfl, ?_,
    destToBinary_length⟩
  intro s
  unfold destToBinary
  exact bitsVal_binFmt 3 _

/-- C10: the pipeline is a pure function of the source lines, so running
fill_symbol_table followed by compile twice on the same source yields
identical output artifacts. -/
theorem c10_deterministic (lines : List String) (o1 o2 : String)
    (h1 : assemble lines = some o1) (h2 : assemble lines = some o2) :
    o1 = o2 :=
  Option.some.inj (h1.symm.trans h2)

/-- Witness for C10 at the end to end example program of the spec. -/
theorem c10_deterministic_witness :
    ("0000000000010000\n1111110010001000\n0000000000000000\n1110101010000111\n" :
        String)
      = "0000000000010000\n1111110010001000\n0000000000000000\n1110101010000111\n" :=
  c10_deterministic ["(LOOP)", "@i", "M=M-1", "@LOOP", "0;JMP"] _ _
    (by decide) (by decide)

end HackAssembler
